import Mathlib

/-!
Verification development for the AIterate repository.

Go strings are modelled as `List Char`.  Each definition below is a direct
translation of the corresponding Go function (named in its doc comment).
The whitespace class used by `strings.TrimSpace` is modelled for the ASCII
and Latin-1 space code points; the exotic higher Unicode space code points
play no role in any property considered here.
-/

namespace AIterate

/-- Whitespace predicate of Go `unicode.IsSpace` restricted to the
Latin-1 range: space, tab, newline, vertical tab, form feed, carriage
return, next line (U+0085) and no-break space (U+00A0). -/
def goIsSpace (c : Char) : Bool :=
  c = ' ' || c = '\t' || c = '\n' || c = Char.ofNat 11 || c = Char.ofNat 12 ||
    c = '\r' || c = Char.ofNat 133 || c = Char.ofNat 160

/-- Drop characters satisfying `p` from both ends of a character list. -/
def trimBy (p : Char → Bool) (s : List Char) : List Char :=
  ((s.dropWhile p).reverse.dropWhile p).reverse

/-- Go `strings.TrimSpace`. -/
def goTrimSpace (s : List Char) : List Char := trimBy goIsSpace s

/-- Go `strings.Split(s, sep)` for the one-character separator `c`. -/
def splitOnChar (c : Char) : List Char → List (List Char)
  | [] => [[]]
  | x :: xs =>
    if x = c then [] :: splitOnChar c xs
    else
      match splitOnChar c xs with
      | [] => [[x]]
      | y :: ys => (x :: y) :: ys

/-- The fenced-code delimiter of three backticks. -/
def fence : List Char := ['`', '`', '`']

/-- Reverse scan of `stripCodeBlock`: on the reversed line list, find the
first line whose trim equals the fence and return the remaining (reversed)
lines, or `none` when no line matches. -/
def revCut : List (List Char) → Option (List (List Char))
  | [] => none
  | l :: rest => if goTrimSpace l = fence then some rest else revCut rest

/-- The closing-marker removal loop of `stripCodeBlock`: scanning from the
end, truncate just before the last line that trims to the fence; leave the
list unchanged when no such line exists. -/
def cutAtLastFence (lines : List (List Char)) : List (List Char) :=
  match revCut lines.reverse with
  | some r => r.reverse
  | none => lines

/-- Body of Go `stripCodeBlock` after the initial `strings.TrimSpace`. -/
def stripCore (code : List Char) : List Char :=
  if fence <+: code then
    if (splitOnChar '\n' code).length ≤ 1 then []
    else goTrimSpace (List.intercalate ['\n'] (cutAtLastFence (splitOnChar '\n' code).tail))
  else goTrimSpace code

/-- Go `stripCodeBlock` (internal/generator): trim the response, then if it
opens with a code fence drop the opening line, drop everything from the last
closing-fence line on, rejoin and trim. -/
def stripCodeBlock (code : List Char) : List Char := stripCore (goTrimSpace code)

/-! Lemmas about trimming. -/

lemma head_dropWhile_not (p : Char → Bool) :
    ∀ (s : List Char) (c : Char), (s.dropWhile p).head? = some c → p c = false := by
  intro s
  induction s with
  | nil => intro c h; simp [List.dropWhile] at h
  | cons x xs ih =>
    intro c h
    rw [List.dropWhile_cons] at h
    by_cases hx : p x
    · rw [if_pos hx] at h; exact ih c h
    · rw [if_neg hx] at h
      simp at h
      subst h
      simpa using hx

lemma head?_of_prefix {t l : List Char} (h : t <+: l) {c : Char}
    (hc : t.head? = some c) : l.head? = some c := by
  obtain ⟨r, rfl⟩ := h
  cases t with
  | nil => simp at hc
  | cons x xs => simpa using hc

lemma trimBy_head (p : Char → Bool) (s : List Char) (c : Char)
    (h : (trimBy p s).head? = some c) : p c = false := by
  unfold trimBy at h
  set u := s.dropWhile p with hu
  have hsfx : (u.reverse.dropWhile p) <:+ u.reverse := List.dropWhile_suffix p
  obtain ⟨w, hw⟩ := hsfx
  have hpref : (u.reverse.dropWhile p).reverse <+: u := by
    refine ⟨w.reverse, ?_⟩
    have := congrArg List.reverse hw
    simpa [List.reverse_append] using this
  have : u.head? = some c := head?_of_prefix hpref h
  exact head_dropWhile_not p s c (hu ▸ this)

lemma trimBy_last (p : Char → Bool) (s : List Char) (c : Char)
    (h : (trimBy p s).getLast? = some c) : p c = false := by
  unfold trimBy at h
  rw [List.getLast?_reverse] at h
  exact head_dropWhile_not p (s.dropWhile p).reverse c h

lemma dropWhile_eq_self_of_head (p : Char → Bool) (s : List Char)
    (h : ∀ c, s.head? = some c → p c = false) : s.dropWhile p = s := by
  cases s with
  | nil => rfl
  | cons x xs =>
    rw [List.dropWhile_cons, if_neg]
    simp [h x rfl]

lemma trimBy_eq_self (p : Char → Bool) (s : List Char)
    (h1 : ∀ c, s.head? = some c → p c = false)
    (h2 : ∀ c, s.getLast? = some c → p c = false) : trimBy p s = s := by
  unfold trimBy
  rw [dropWhile_eq_self_of_head p s h1]
  rw [dropWhile_eq_self_of_head p s.reverse (by intro c hc; exact h2 c (by rwa [List.head?_reverse] at hc))]
  exact List.reverse_reverse s

lemma trimBy_idem (p : Char → Bool) (s : List Char) :
    trimBy p (trimBy p s) = trimBy p s :=
  trimBy_eq_self p _ (trimBy_head p s) (trimBy_last p s)

lemma trimBy_within (p : Char → Bool) (s : List Char) : trimBy p s <:+: s := by
  unfold trimBy
  obtain ⟨b, hb⟩ : s.dropWhile p <:+ s := List.dropWhile_suffix p
  obtain ⟨w, hw⟩ : (s.dropWhile p).reverse.dropWhile p <:+ (s.dropWhile p).reverse :=
    List.dropWhile_suffix p
  refine ⟨b, w.reverse, ?_⟩
  have := congrArg List.reverse hw
  rw [List.reverse_append, List.reverse_reverse] at this
  rw [← this] at hb
  simpa [List.append_assoc] using hb

lemma trimBy_cons_pos (p : Char → Bool) {c : Char} (hc : p c = true) (s : List Char) :
    trimBy p (c :: s) = trimBy p s := by
  unfold trimBy
  rw [List.dropWhile_cons, if_pos hc]

lemma trimBy_concat_pos (p : Char → Bool) {c : Char} (hc : p c = true) :
    ∀ s : List Char, trimBy p (s ++ [c]) = trimBy p s := by
  intro s
  induction s with
  | nil => simp [trimBy, List.dropWhile, hc]
  | cons x xs ih =>
    by_cases hx : p x
    · rw [List.cons_append, trimBy_cons_pos p hx, ih, trimBy_cons_pos p hx]
    · unfold trimBy
      rw [List.cons_append, List.dropWhile_cons, if_neg (by simp [hx])]
      conv_rhs => rw [List.dropWhile_cons, if_neg (by simp [hx])]
      have hrev : (x :: (xs ++ [c])).reverse = c :: (x :: xs).reverse := by simp
      rw [hrev, List.dropWhile_cons, if_pos hc]

lemma trim_head_not_space (s : List Char) (c : Char)
    (h : (goTrimSpace s).head? = some c) : goIsSpace c = false :=
  trimBy_head goIsSpace s c h

lemma trim_last_not_space (s : List Char) (c : Char)
    (h : (goTrimSpace s).getLast? = some c) : goIsSpace c = false :=
  trimBy_last goIsSpace s c h

lemma goTrimSpace_idem (s : List Char) : goTrimSpace (goTrimSpace s) = goTrimSpace s :=
  trimBy_idem goIsSpace s

lemma goTrimSpace_eq_self (s : List Char)
    (h1 : ∀ c, s.head? = some c → goIsSpace c = false)
    (h2 : ∀ c, s.getLast? = some c → goIsSpace c = false) : goTrimSpace s = s :=
  trimBy_eq_self goIsSpace s h1 h2

lemma goTrimSpace_within (s : List Char) : goTrimSpace s <:+: s :=
  trimBy_within goIsSpace s

lemma goTrimSpace_cons_nl (s : List Char) : goTrimSpace ('\n' :: s) = goTrimSpace s :=
  trimBy_cons_pos goIsSpace (by decide) s

lemma goTrimSpace_concat_nl (s : List Char) : goTrimSpace (s ++ ['\n']) = goTrimSpace s :=
  trimBy_concat_pos goIsSpace (by decide) s

lemma goTrimSpace_wrap_nl (s : List Char) :
    goTrimSpace ('\n' :: s ++ ['\n']) = goTrimSpace s := by
  rw [List.cons_append, goTrimSpace_cons_nl, goTrimSpace_concat_nl]

/-! Lemmas about line splitting. -/

lemma splitOnChar_ne_nil (c : Char) : ∀ s : List Char, splitOnChar c s ≠ [] := by
  intro s
  induction s with
  | nil => simp [splitOnChar]
  | cons x xs ih =>
    rw [splitOnChar]
    by_cases hx : x = c
    · simp [hx]
    · rw [if_neg hx]
      cases hs : splitOnChar c xs with
      | nil => simp
      | cons y ys => simp

lemma splitOnChar_append (c : Char) (b : List Char) :
    ∀ a : List Char, splitOnChar c (a ++ c :: b) = splitOnChar c a ++ splitOnChar c b := by
  intro a
  induction a with
  | nil => simp [splitOnChar]
  | cons x xs ih =>
    by_cases hx : x = c
    · subst hx
      rw [List.cons_append, splitOnChar, if_pos rfl, ih, splitOnChar, if_pos rfl]
      rfl
    · rw [List.cons_append, splitOnChar, if_neg hx, ih]
      cases hs : splitOnChar c xs with
      | nil => exact absurd hs (splitOnChar_ne_nil c xs)
      | cons y ys =>
        rw [List.cons_append, splitOnChar, if_neg hx, hs]
        rfl

lemma splitOnChar_of_not_mem (c : Char) {s : List Char} (h : c ∉ s) :
    splitOnChar c s = [s] := by
  induction s with
  | nil => rfl
  | cons x xs ih =>
    have hx : x ≠ c := fun hc => h (hc ▸ List.mem_cons_self x xs)
    have hxs : c ∉ xs := fun hc => h (List.mem_cons_of_mem x hc)
    rw [splitOnChar, if_neg hx, ih hxs]

lemma intercalate_cons₂ (sep a b : List Char) (t : List (List Char)) :
    List.intercalate sep (a :: b :: t) = a ++ sep ++ List.intercalate sep (b :: t) := by
  simp [List.intercalate, List.intersperse, List.append_assoc]

lemma intercalate_single (sep a : List Char) : List.intercalate sep [a] = a := by
  simp [List.intercalate, List.intersperse]

lemma intercalate_splitOnChar (c : Char) :
    ∀ s : List Char, List.intercalate [c] (splitOnChar c s) = s := by
  intro s
  induction s with
  | nil => simp [splitOnChar, intercalate_single]
  | cons x xs ih =>
    by_cases hx : x = c
    · subst hx
      rw [splitOnChar, if_pos rfl]
      cases hs : splitOnChar x xs with
      | nil => exact absurd hs (splitOnChar_ne_nil x xs)
      | cons y ys =>
        rw [intercalate_cons₂, ← hs, ih]
        simp
    · rw [splitOnChar, if_neg hx]
      cases hs : splitOnChar c xs with
      | nil => exact absurd hs (splitOnChar_ne_nil c xs)
      | cons y ys =>
        cases ys with
        | nil =>
          rw [intercalate_single]
          have := ih
          rw [hs, intercalate_single] at this
          rw [this]
        | cons z zs =>
          rw [intercalate_cons₂]
          have := ih
          rw [hs, intercalate_cons₂] at this
          rw [List.cons_append, List.cons_append, this]

/-! Lemmas about the closing-fence cut. -/

lemma revCut_eq_none {M : List (List Char)} (h : ∀ l ∈ M, goTrimSpace l ≠ fence) :
    revCut M = none := by
  induction M with
  | nil => rfl
  | cons l rest ih =>
    rw [revCut, if_neg (h l (List.mem_cons_self l rest))]
    exact ih fun x hx => h x (List.mem_cons_of_mem l hx)

lemma cutAtLastFence_of_no_fence {L : List (List Char)}
    (h : ∀ l ∈ L, goTrimSpace l ≠ fence) : cutAtLastFence L = L := by
  unfold cutAtLastFence
  rw [revCut_eq_none (by intro l hl; exact h l (List.mem_reverse.mp hl))]

lemma cutAtLastFence_concat_fence (L : List (List Char)) :
    cutAtLastFence (L ++ [fence]) = L := by
  unfold cutAtLastFence
  have : (L ++ [fence]).reverse = fence :: L.reverse := by simp
  rw [this, revCut, if_pos (by decide)]
  simp

/-! Behaviour of `stripCodeBlock` on the three response shapes of the
specification, plus the unterminated-fence shape. -/

lemma mem_of_within {t l : List Char} (h : t <:+: l) {c : Char} (hc : c ∈ t) : c ∈ l := by
  obtain ⟨a, b, rfl⟩ := h
  simp [hc]

lemma within_trans {a b c : List Char} (h1 : a <:+: b) (h2 : b <:+: c) : a <:+: c := by
  obtain ⟨s, t, rfl⟩ := h1
  obtain ⟨u, v, rfl⟩ := h2
  exact ⟨u ++ s, t ++ v, by simp [List.append_assoc]⟩

lemma stripCodeBlock_fenced (tag body : List Char)
    (htag : '\n' ∉ tag)
    (_hbody : ∀ l ∈ splitOnChar '\n' body, goTrimSpace l ≠ fence) :
    stripCodeBlock (fence ++ tag ++ '\n' :: (body ++ '\n' :: fence)) = goTrimSpace body := by
  set input := fence ++ tag ++ '\n' :: (body ++ '\n' :: fence) with hinput
  have hhead : input.head? = some '`' := by
    rw [hinput]
    simp [fence]
  have hlast : input.getLast? = some '`' := by
    rw [hinput]
    rw [show fence ++ tag ++ '\n' :: (body ++ '\n' :: fence)
        = (fence ++ tag ++ '\n' :: body ++ ['\n', '`', '`']) ++ ['`'] by
      simp [fence]]
    simp only [List.getLast?_concat]
  have htrim : goTrimSpace input = input := by
    apply goTrimSpace_eq_self
    · intro c hc
      rw [hhead] at hc
      simp at hc
      subst hc
      decide
    · intro c hc
      rw [hlast] at hc
      simp at hc
      subst hc
      decide
  have hpre : fence <+: input := by
    rw [hinput, List.append_assoc]
    exact List.prefix_append fence _
  have hlines : splitOnChar '\n' input =
      [fence ++ tag] ++ (splitOnChar '\n' body ++ [fence]) := by
    rw [hinput, show fence ++ tag ++ '\n' :: (body ++ '\n' :: fence)
        = (fence ++ tag) ++ '\n' :: (body ++ '\n' :: fence) by simp [List.append_assoc]]
    rw [splitOnChar_append, splitOnChar_append]
    rw [splitOnChar_of_not_mem '\n' (s := fence ++ tag) (by simp [fence, htag])]
    rw [splitOnChar_of_not_mem '\n' (s := fence) (by simp [fence])]
  have hlen : ¬ (([fence ++ tag] ++ (splitOnChar '\n' body ++ [fence])).length ≤ 1) := by
    simp [List.length_append]
  unfold stripCodeBlock
  rw [htrim]
  unfold stripCore
  rw [if_pos hpre, hlines, if_neg hlen]
  simp only [List.singleton_append, List.tail_cons]
  rw [cutAtLastFence_concat_fence, intercalate_splitOnChar]

lemma stripCodeBlock_open_only (s : List Char)
    (hpre : fence <+: goTrimSpace s) (hnl : '\n' ∉ s) :
    stripCodeBlock s = [] := by
  unfold stripCodeBlock stripCore
  rw [if_pos hpre]
  have hnl' : '\n' ∉ goTrimSpace s := fun hc => hnl (mem_of_within (goTrimSpace_within s) hc)
  rw [splitOnChar_of_not_mem '\n' hnl']
  simp

lemma stripCodeBlock_no_fence (s : List Char) (h : ¬ fence <:+: s) :
    stripCodeBlock s = goTrimSpace s := by
  unfold stripCodeBlock stripCore
  rw [if_neg, goTrimSpace_idem]
  intro hpre
  obtain ⟨t, ht⟩ := hpre
  exact h (within_trans ⟨[], t, by simpa using ht⟩ (goTrimSpace_within s))

lemma stripCodeBlock_unterminated (line0 rest : List Char)
    (hpre : fence <+: line0) (hnl : '\n' ∉ line0)
    (htrim : goTrimSpace (line0 ++ '\n' :: rest) = line0 ++ '\n' :: rest)
    (hrest : ∀ l ∈ splitOnChar '\n' rest, goTrimSpace l ≠ fence) :
    stripCodeBlock (line0 ++ '\n' :: rest) = goTrimSpace rest := by
  unfold stripCodeBlock
  rw [htrim]
  unfold stripCore
  rw [if_pos (by obtain ⟨t, rfl⟩ := hpre; exact ⟨t ++ '\n' :: rest, by simp⟩)]
  rw [splitOnChar_append, splitOnChar_of_not_mem '\n' hnl]
  have hlen : ¬ (([line0] ++ splitOnChar '\n' rest).length ≤ 1) := by
    cases hs : splitOnChar '\n' rest with
    | nil => exact absurd hs (splitOnChar_ne_nil '\n' rest)
    | cons y ys => simp [List.length_append]
  rw [if_neg hlen]
  simp only [List.singleton_append, List.tail_cons]
  rw [cutAtLastFence_of_no_fence hrest, intercalate_splitOnChar]

/-- C6: for the response normaliser `stripCodeBlock`: a single fenced block
with a matching closing fence (optional language tag on the opening line)
yields exactly the text between the fences, trimmed; an opening fence with
no further line yields the empty string; text with no fence markers at all
yields the trimmed input unchanged. -/
theorem claim_c6_stripCodeBlock_cases :
    (∀ tag body : List Char, '\n' ∉ tag →
      (∀ l ∈ splitOnChar '\n' body, goTrimSpace l ≠ fence) →
      stripCodeBlock (fence ++ tag ++ '\n' :: (body ++ '\n' :: fence)) = goTrimSpace body)
    ∧ (∀ s : List Char, fence <+: goTrimSpace s → '\n' ∉ s → stripCodeBlock s = [])
    ∧ (∀ s : List Char, ¬ fence <:+: s → stripCodeBlock s = goTrimSpace s) :=
  ⟨stripCodeBlock_fenced, stripCodeBlock_open_only, stripCodeBlock_no_fence⟩

/-- Witness for C6 at the concrete responses three-backticks+go+newline+ab+
newline+three-backticks, three-backticks+go, and space+hi+space. -/
theorem claim_c6_witness :
    stripCodeBlock (fence ++ ['g', 'o'] ++ '\n' :: (['a', 'b'] ++ '\n' :: fence)) = ['a', 'b']
    ∧ stripCodeBlock (fence ++ ['g', 'o']) = []
    ∧ stripCodeBlock [' ', 'h', 'i', ' '] = ['h', 'i'] := by
  refine ⟨?_, ?_, ?_⟩
  · rw [claim_c6_stripCodeBlock_cases.1 ['g', 'o'] ['a', 'b'] (by decide) (by decide)]
    decide
  · exact claim_c6_stripCodeBlock_cases.2.1 (fence ++ ['g', 'o']) (by decide) (by decide)
  · rw [claim_c6_stripCodeBlock_cases.2.2 [' ', 'h', 'i', ' '] (by decide)]
    decide

/-- C10: an input that opens with a fence marker, has at least one further
line, and contains no closing-fence line keeps the whole body: the result is
all the lines after the opening line, joined and trimmed. -/
theorem claim_c10_unterminated_keeps_body (line0 rest : List Char)
    (hpre : fence <+: line0) (hnl : '\n' ∉ line0)
    (htrim : goTrimSpace (line0 ++ '\n' :: rest) = line0 ++ '\n' :: rest)
    (hrest : ∀ l ∈ splitOnChar '\n' rest, goTrimSpace l ≠ fence) :
    stripCodeBlock (line0 ++ '\n' :: rest) = goTrimSpace rest :=
  stripCodeBlock_unterminated line0 rest hpre hnl htrim hrest

/-- Witness for C10 at the concrete response three-backticks+go, newline,
abc with no closing fence. -/
theorem claim_c10_witness :
    stripCodeBlock ((fence ++ ['g', 'o']) ++ '\n' :: ['a', 'b', 'c'])
      = goTrimSpace ['a', 'b', 'c'] :=
  claim_c10_unterminated_keeps_body (fence ++ ['g', 'o']) ['a', 'b', 'c']
    (by decide) (by decide) (by decide) (by decide)

/-! The slug-cleaning pipeline of `CodeGenerator.GenerateDirectoryName`. -/

/-- Character class kept by the `strings.Map` step of
`GenerateDirectoryName`: lowercase ASCII letters, digits, hyphen. -/
def isSlugChar (c : Char) : Bool :=
  ('a' ≤ c && c ≤ 'z') || ('0' ≤ c && c ≤ '9') || c = '-'

/-- The `strings.Map` step: keep slug characters, replace anything else
with a hyphen. -/
def slugMapChar (c : Char) : Char := if isSlugChar c then c else '-'

/-- One round of Go `strings.ReplaceAll(name, "--", "-")`: replace
non-overlapping double hyphens left to right. -/
def repDD : List Char → List Char
  | [] => []
  | [c] => [c]
  | c1 :: c2 :: rest =>
    if c1 = '-' ∧ c2 = '-' then '-' :: repDD rest
    else c1 :: repDD (c2 :: rest)

/-- Go `strings.Contains(name, "--")`. -/
def hasDD : List Char → Bool
  | [] => false
  | [_] => false
  | c1 :: c2 :: rest => (c1 = '-' && c2 = '-') || hasDD (c2 :: rest)

lemma repDD_length_le : ∀ s : List Char, (repDD s).length ≤ s.length := by
  intro s
  induction s using repDD.induct with
  | case1 => simp [repDD]
  | case2 c => simp [repDD]
  | case3 c1 c2 rest h ih =>
    rw [repDD, if_pos h]
    simp only [List.length_cons]
    omega
  | case4 c1 c2 rest h ih =>
    rw [repDD, if_neg h]
    simp only [List.length_cons] at ih ⊢
    omega

lemma repDD_length_lt : ∀ s : List Char, hasDD s = true → (repDD s).length < s.length := by
  intro s
  induction s using repDD.induct with
  | case1 => simp [hasDD]
  | case2 c => simp [hasDD]
  | case3 c1 c2 rest h ih =>
    intro _
    rw [repDD, if_pos h]
    have := repDD_length_le rest
    simp only [List.length_cons]
    omega
  | case4 c1 c2 rest h ih =>
    intro hdd
    rw [repDD, if_neg h]
    rw [hasDD] at hdd
    have hh : hasDD (c2 :: rest) = true := by
      rcases Bool.or_eq_true_iff.mp hdd with h1 | h2
      · exact absurd (by simpa using h1) h
      · exact h2
    have := ih hh
    simpa using this

/-- The Go loop `for strings.Contains(name, "--") { name = ReplaceAll … }`. -/
def collapseDashes (s : List Char) : List Char :=
  if h : hasDD s = true then collapseDashes (repDD s) else s
termination_by s.length
decreasing_by exact repDD_length_lt s h

lemma collapseDashes_noDD (s : List Char) : hasDD (collapseDashes s) = false := by
  have H : ∀ n, ∀ s : List Char, s.length ≤ n → hasDD (collapseDashes s) = false := by
    intro n
    induction n with
    | zero =>
      intro s hs
      have hs0 : s = [] := List.eq_nil_of_length_eq_zero (Nat.le_zero.mp hs)
      subst hs0
      rw [collapseDashes, dif_neg (by simp [hasDD])]
      simp [hasDD]
    | succ n ih =>
      intro s hs
      rw [collapseDashes]
      by_cases h : hasDD s = true
      · rw [dif_pos h]
        exact ih (repDD s) (by have := repDD_length_lt s h; omega)
      · rw [dif_neg h]
        simpa using h
  exact H s.length s le_rfl

lemma mem_repDD : ∀ (s : List Char) (c : Char), c ∈ repDD s → c ∈ s := by
  intro s
  induction s using repDD.induct with
  | case1 => simp [repDD]
  | case2 d => simp [repDD]
  | case3 c1 c2 rest h ih =>
    intro c hc
    rw [repDD, if_pos h] at hc
    rcases List.mem_cons.mp hc with h1 | h2
    · simp [h1, h.1]
    · simp [ih c h2]
  | case4 c1 c2 rest h ih =>
    intro c hc
    rw [repDD, if_neg h] at hc
    rcases List.mem_cons.mp hc with h1 | h2
    · simp [h1]
    · have := ih c h2
      simp only [List.mem_cons] at this ⊢
      tauto

lemma mem_collapseDashes (s : List Char) (c : Char) (hc : c ∈ collapseDashes s) : c ∈ s := by
  have H : ∀ n, ∀ s : List Char, s.length ≤ n → c ∈ collapseDashes s → c ∈ s := by
    intro n
    induction n with
    | zero =>
      intro s hs hc'
      have hs0 : s = [] := List.eq_nil_of_length_eq_zero (Nat.le_zero.mp hs)
      subst hs0
      rwa [collapseDashes, dif_neg (by simp [hasDD])] at hc'
    | succ n ih =>
      intro s hs hc'
      rw [collapseDashes] at hc'
      by_cases h : hasDD s = true
      · rw [dif_pos h] at hc'
        exact mem_repDD s c (ih (repDD s) (by have := repDD_length_lt s h; omega) hc')
      · rwa [dif_neg h] at hc'
  exact H s.length s le_rfl hc

lemma hasDD_iff (s : List Char) : hasDD s = true ↔ ['-', '-'] <:+: s := by
  induction s with
  | nil =>
    constructor
    · intro h; simp [hasDD] at h
    · rintro ⟨a, b, hab⟩; simp at hab
  | cons c1 t ih =>
    cases t with
    | nil =>
      constructor
      · intro h; simp [hasDD] at h
      · rintro ⟨a, b, hab⟩
        exfalso
        cases a with
        | nil => simp at hab
        | cons x xs => cases xs with
          | nil => simp at hab
          | cons y ys => simp at hab
    | cons c2 rest =>
      rw [hasDD, Bool.or_eq_true_iff]
      constructor
      · rintro (h1 | h2)
        · have h1' : c1 = '-' ∧ c2 = '-' := by simpa using h1
          exact ⟨[], rest, by simp [h1'.1, h1'.2]⟩
        · obtain ⟨a, b, hab⟩ := ih.mp h2
          exact ⟨c1 :: a, b, by simp [← hab]⟩
      · rintro ⟨a, b, hab⟩
        cases a with
        | nil =>
          simp at hab
          obtain ⟨h1, h2, _⟩ := hab
          subst h1
          subst h2
          left
          decide
        | cons x xs =>
          right
          apply ih.mpr
          refine ⟨xs, b, ?_⟩
          simpa using congrArg List.tail hab

lemma hasDD_of_within {t s : List Char} (h : hasDD t = true) (hw : t <:+: s) :
    hasDD s = true :=
  (hasDD_iff s).mpr (within_trans ((hasDD_iff t).mp h) hw)

/-- Go `strings.Trim(name, "-")`. -/
def trimDash (s : List Char) : List Char := trimBy (fun c => c = '-') s

/-- The final guard of `GenerateDirectoryName`: prepend the fixed letter
prefix when the cleaned name does not start with a lowercase letter. -/
def ensureLetter (s : List Char) : List Char :=
  match s with
  | [] => []
  | c :: rest => if 'a' ≤ c ∧ c ≤ 'z' then c :: rest else 'f' :: 'n' :: '-' :: c :: rest

/-- The cleaning pipeline of `GenerateDirectoryName` up to the hyphen
trimming: strip the fenced block, trim and lowercase, map to the slug
alphabet, collapse double hyphens, trim hyphens from both ends. -/
def cleanDirCore (raw : List Char) : List Char :=
  trimDash (collapseDashes (((goTrimSpace (stripCodeBlock raw)).map Char.toLower).map slugMapChar))

/-- The full cleaning of `GenerateDirectoryName` applied to the raw model
response. -/
def cleanDirName (raw : List Char) : List Char := ensureLetter (cleanDirCore raw)

lemma isSlugChar_slugMapChar (c : Char) : isSlugChar (slugMapChar c) = true := by
  unfold slugMapChar
  by_cases h : isSlugChar c = true
  · rwa [if_pos h]
  · rw [if_neg h]
    decide

lemma cleanDirCore_mem (raw : List Char) :
    ∀ c ∈ cleanDirCore raw, isSlugChar c = true := by
  intro c hc
  unfold cleanDirCore at hc
  have h1 : c ∈ collapseDashes (((goTrimSpace (stripCodeBlock raw)).map Char.toLower).map slugMapChar) :=
    mem_of_within (trimBy_within _ _) hc
  have h2 := mem_collapseDashes _ c h1
  obtain ⟨x, _, hx⟩ := List.mem_map.mp h2
  rw [← hx]
  exact isSlugChar_slugMapChar x

lemma cleanDirCore_noDD (raw : List Char) : hasDD (cleanDirCore raw) = false := by
  unfold cleanDirCore
  by_cases h : hasDD (trimDash (collapseDashes (((goTrimSpace (stripCodeBlock raw)).map Char.toLower).map slugMapChar))) = true
  · have := hasDD_of_within h (trimBy_within _ _)
    rw [collapseDashes_noDD] at this
    cases this
  · simpa using h

lemma cleanDirCore_head (raw : List Char) (c : Char)
    (hc : (cleanDirCore raw).head? = some c) : c ≠ '-' := by
  have := trimBy_head (fun c => c = '-') _ c hc
  simpa using this

lemma cleanDirCore_last (raw : List Char) (c : Char)
    (hc : (cleanDirCore raw).getLast? = some c) : c ≠ '-' := by
  have := trimBy_last (fun c => c = '-') _ c hc
  simpa using this

/-- C7: the cleaned slug contains only lowercase letters, digits and
hyphens, has no double hyphen, starts with a lowercase letter whenever it
is nonempty (so in particular no leading hyphen), ends in a non-hyphen,
and when the cleaned core starts with a non-letter the fixed letter prefix
is prepended. -/
theorem claim_c7_slug_shape (raw : List Char) :
    (∀ c ∈ cleanDirName raw, isSlugChar c = true)
    ∧ hasDD (cleanDirName raw) = false
    ∧ (∀ c, (cleanDirName raw).head? = some c → 'a' ≤ c ∧ c ≤ 'z')
    ∧ (∀ c, (cleanDirName raw).getLast? = some c → c ≠ '-')
    ∧ (∀ c rest, cleanDirCore raw = c :: rest → ¬('a' ≤ c ∧ c ≤ 'z') →
        cleanDirName raw = 'f' :: 'n' :: '-' :: c :: rest) := by
  unfold cleanDirName
  cases hcore : cleanDirCore raw with
  | nil =>
    refine ⟨?_, ?_, ?_, ?_, ?_⟩
    · intro c hc; simp [ensureLetter] at hc
    · simp [ensureLetter, hasDD]
    · intro c hc; simp [ensureLetter] at hc
    · intro c hc; simp [ensureLetter] at hc
    · intro c rest hcr hne; exact absurd hcr (by simp)
  | cons c0 rest0 =>
    have hmem : ∀ c ∈ c0 :: rest0, isSlugChar c = true := hcore ▸ cleanDirCore_mem raw
    have hnoDD : hasDD (c0 :: rest0) = false := hcore ▸ cleanDirCore_noDD raw
    have hhead : c0 ≠ '-' := cleanDirCore_head raw c0 (by rw [hcore]; rfl)
    have hlast : ∀ c, (c0 :: rest0).getLast? = some c → c ≠ '-' := by
      intro c hc
      exact cleanDirCore_last raw c (hcore ▸ hc)
    by_cases hl : 'a' ≤ c0 ∧ c0 ≤ 'z'
    · rw [ensureLetter, if_pos hl]
      refine ⟨hmem, hnoDD, ?_, hlast, ?_⟩
      · intro c hc
        rw [List.head?_cons] at hc
        injection hc with h
        subst h
        exact hl
      · intro c rest hcr hne
        injection hcr with h1 h2
        subst h1
        exact absurd hl hne
    · rw [ensureLetter, if_neg hl]
      refine ⟨?_, ?_, ?_, ?_, ?_⟩
      · intro c hc
        simp only [List.mem_cons] at hc
        rcases hc with rfl | rfl | rfl | hc
        · decide
        · decide
        · decide
        · exact hmem c (List.mem_cons.mpr (by simpa using hc))
      · show hasDD ('f' :: 'n' :: '-' :: c0 :: rest0) = false
        rw [hasDD, hasDD, hasDD, hnoDD]
        have hc0 : decide (c0 = '-') = false := by simpa using hhead
        simp [hc0]
      · intro c hc
        rw [List.head?_cons] at hc
        injection hc with h
        subst h
        decide
      · intro c hc
        have : (c0 :: rest0).getLast? = some c := by
          rw [show 'f' :: 'n' :: '-' :: c0 :: rest0 = ['f', 'n', '-'] ++ c0 :: rest0 by rfl] at hc
          rwa [List.getLast?_append_of_ne_nil ['f', 'n', '-'] (by simp)] at hc
        exact hlast c this
      · intro c rest hcr hne
        rw [hcr]

/-- Witness for C7 at the concrete raw response 9+space+L+i+v+e+s+exclamation,
whose cleaned core starts with a digit and therefore receives the letter
prefix. -/
theorem claim_c7_witness :
    isSlugChar 'f' = true ∧ ('a' ≤ 'f' ∧ 'f' ≤ 'z')
    ∧ cleanDirName ['9', ' ', 'L', 'i', 'v', 'e', 's', '!']
        = 'f' :: 'n' :: '-' :: '9' :: ['-', 'l', 'i', 'v', 'e', 's'] := by
  refine ⟨by decide, by decide, ?_⟩
  have hcore : cleanDirCore ['9', ' ', 'L', 'i', 'v', 'e', 's', '!']
      = '9' :: ['-', 'l', 'i', 'v', 'e', 's'] := by
    unfold cleanDirCore
    rw [collapseDashes, dif_neg (by decide)]
    decide
  exact (claim_c7_slug_shape ['9', ' ', 'L', 'i', 'v', 'e', 's', '!']).2.2.2.2
    '9' ['-', 'l', 'i', 'v', 'e', 's'] hcore (by decide)

/-! The joint-repair parser of `CodeGenerator.FixBoth`. -/

/-- Error outcomes of the modelled Go functions; each constructor stands
for one error site in the source.  `malformedFormat` is the message
invalid response format from AI, `malformedExtract` is the message
failed to extract implementation or test code. -/
inductive Err
  | unsupportedLanguage
  | malformedFormat
  | malformedExtract
  | serviceFailure
  | persistenceFailure
  | writeFailure
  | copyFailure
deriving DecidableEq

/-- The three-hyphen section separator of the joint-repair format. -/
def dd3 : List Char := ['-', '-', '-']

/-- The IMPLEMENTATION section marker word. -/
def implMark : List Char := ['I', 'M', 'P', 'L', 'E', 'M', 'E', 'N', 'T', 'A', 'T', 'I', 'O', 'N']

/-- The TESTS section marker word. -/
def testsMark : List Char := ['T', 'E', 'S', 'T', 'S']

/-- The END marker word. -/
def endMark : List Char := ['E', 'N', 'D']

/-- Go `strings.Split(response, "---")`: scan left to right, cutting at
each non-overlapping occurrence of the three-hyphen separator. -/
def splitDashes : List Char → List (List Char)
  | [] => [[]]
  | c :: rest =>
    if dd3 <+: c :: rest then [] :: splitDashes (rest.drop 2)
    else
      match splitDashes rest with
      | [] => [[c]]
      | y :: ys => (c :: y) :: ys
termination_by s => s.length
decreasing_by
  · simp only [List.length_cons, List.length_drop]
    omega
  · simp only [List.length_cons]
    omega

/-- The extraction loop of `FixBoth`: walk the split parts; a part whose
trim equals IMPLEMENTATION (resp. TESTS) sets the implementation (resp.
tests) to the fence-cleaned following part, when a following part exists. -/
def extractParts : List (List Char) → List Char → List Char → List Char × List Char
  | [], impl, tst => (impl, tst)
  | p :: rest, impl, tst =>
    if goTrimSpace p = implMark then
      if rest = [] then extractParts rest impl tst
      else extractParts rest (stripCodeBlock (rest.headD [])) tst
    else if goTrimSpace p = testsMark then
      if rest = [] then extractParts rest impl tst
      else extractParts rest impl (stripCodeBlock (rest.headD []))
    else extractParts rest impl tst

/-- The result record of `FixBoth` (fields `TestCode` and `Code`). -/
structure FixResult where
  testCode : List Char
  code : List Char
deriving DecidableEq

/-- The parsing part of `CodeGenerator.FixBoth`: split the response on the
three-hyphen separator, reject fewer than five parts, extract the two
sections, reject when either extracted section is empty. -/
def parseFixBoth (response : List Char) : Except Err FixResult :=
  if (splitDashes response).length < 5 then .error .malformedFormat
  else if (extractParts (splitDashes response) [] []).1 = []
      ∨ (extractParts (splitDashes response) [] []).2 = [] then .error .malformedExtract
  else .ok ⟨(extractParts (splitDashes response) [] []).2,
            (extractParts (splitDashes response) [] []).1⟩

/-- The joint-repair response in the exact format requested by the FixBoth
prompt: IMPLEMENTATION and TESTS sections delimited by three-hyphen
markers, each section on its own lines, closed by the END marker. -/
def wfResponse (impl tests : List Char) : List Char :=
  dd3 ++ (implMark ++ (dd3 ++ (('\n' :: impl ++ ['\n']) ++ (dd3 ++ (testsMark ++
    (dd3 ++ (('\n' :: tests ++ ['\n']) ++ (dd3 ++ (endMark ++ (dd3 ++ ([] : List Char)))))))))))

lemma within_cons {t l : List Char} (c : Char) (h : t <:+: l) : t <:+: c :: l := by
  obtain ⟨s, u, rfl⟩ := h
  exact ⟨c :: s, u, by simp⟩

lemma within_cons_elim {t l : List Char} {c : Char} (h : t <:+: c :: l) :
    t <+: c :: l ∨ t <:+: l := by
  obtain ⟨s, u, hsu⟩ := h
  cases s with
  | nil => exact Or.inl ⟨u, by simpa using hsu⟩
  | cons x s1 =>
    right
    refine ⟨s1, u, ?_⟩
    have := congrArg List.tail hsu
    simpa using this

lemma dd3_not_within_wrap {x : List Char} (h : dd3 <:+: '\n' :: x ++ ['\n']) :
    dd3 <:+: x := by
  rcases within_cons_elim h with hp | h2
  · exfalso
    obtain ⟨t, ht⟩ := hp
    rw [show dd3 ++ t = '-' :: (['-', '-'] ++ t) by simp [dd3]] at ht
    injection ht with h1 _
    cases h1
  · have h2' : dd3 <:+: '\n' :: x.reverse := by
      have := List.reverse_infix.mpr h2
      simpa [dd3] using this
    rcases within_cons_elim h2' with hp | h3
    · exfalso
      obtain ⟨t, ht⟩ := hp
      rw [show dd3 ++ t = '-' :: (['-', '-'] ++ t) by simp [dd3]] at ht
      injection ht with h1 _
      cases h1
    · have := List.reverse_infix.mpr h3
      simpa [dd3] using this

lemma splitDashes_no_sep : ∀ a : List Char, ¬ dd3 <:+: a → splitDashes a = [a] := by
  intro a
  induction a with
  | nil => intro _; rw [splitDashes]
  | cons c rest ih =>
    intro h
    rw [splitDashes, if_neg (fun hp => h (by obtain ⟨t, ht⟩ := hp; exact ⟨[], t, by simpa using ht⟩))]
    rw [ih (fun hw => h (within_cons c hw))]

lemma dd3_not_prefix_mid (a b : List Char) (hno : ¬ dd3 <:+: a)
    (hlast : a.getLast? ≠ some '-') (hne : a ≠ []) :
    ¬ dd3 <+: a ++ (dd3 ++ b) := by
  rintro ⟨t, ht⟩
  rw [show dd3 ++ t = '-' :: '-' :: '-' :: t by simp [dd3]] at ht
  cases a with
  | nil => exact hne rfl
  | cons x a1 =>
    rw [List.cons_append] at ht
    injection ht with h1 hrest1
    cases a1 with
    | nil =>
      exact hlast (by simp [← h1])
    | cons y a2 =>
      rw [List.cons_append] at hrest1
      injection hrest1 with h2 hrest2
      cases a2 with
      | nil =>
        exact hlast (by simp [← h2])
      | cons z a3 =>
        rw [List.cons_append] at hrest2
        injection hrest2 with h3 _
        exact hno ⟨[], a3, by simp [dd3, ← h1, ← h2, ← h3]⟩

lemma splitDashes_sep (b : List Char) : splitDashes (dd3 ++ b) = [] :: splitDashes b := by
  rw [show dd3 ++ b = '-' :: ('-' :: '-' :: b) by simp [dd3]]
  rw [splitDashes, if_pos ⟨b, by simp [dd3]⟩]
  rfl

lemma splitDashes_append : ∀ a b : List Char, ¬ dd3 <:+: a → a.getLast? ≠ some '-' →
    splitDashes (a ++ (dd3 ++ b)) = a :: splitDashes b := by
  intro a
  induction a with
  | nil =>
    intro b _ _
    simpa using splitDashes_sep b
  | cons c a1 ih =>
    intro b hno hlast
    rw [List.cons_append, splitDashes,
      if_neg (by rw [← List.cons_append]; exact dd3_not_prefix_mid (c :: a1) b hno hlast (by simp))]
    have hno1 : ¬ dd3 <:+: a1 := fun hw => hno (within_cons c hw)
    have hlast1 : a1.getLast? ≠ some '-' := by
      cases a1 with
      | nil => simp
      | cons y a2 =>
        rwa [List.getLast?_cons_cons] at hlast
    rw [ih b hno1 hlast1]

lemma stripCodeBlock_wrap (x : List Char) :
    stripCodeBlock ('\n' :: x ++ ['\n']) = stripCodeBlock x := by
  unfold stripCodeBlock
  rw [goTrimSpace_wrap_nl]

lemma splitDashes_wfResponse (impl tests : List Char)
    (hi : ¬ dd3 <:+: impl) (ht : ¬ dd3 <:+: tests) :
    splitDashes (wfResponse impl tests)
      = [[], implMark, '\n' :: impl ++ ['\n'], testsMark, '\n' :: tests ++ ['\n'], endMark, []] := by
  have hi' : ¬ dd3 <:+: '\n' :: impl ++ ['\n'] := fun hw => hi (dd3_not_within_wrap hw)
  have ht' : ¬ dd3 <:+: '\n' :: tests ++ ['\n'] := fun hw => ht (dd3_not_within_wrap hw)
  have hilast : ('\n' :: impl ++ ['\n']).getLast? ≠ some '-' := by
    rw [List.getLast?_append_of_ne_nil ('\n' :: impl) (by simp)]
    decide
  have htlast : ('\n' :: tests ++ ['\n']).getLast? ≠ some '-' := by
    rw [List.getLast?_append_of_ne_nil ('\n' :: tests) (by simp)]
    decide
  rw [wfResponse, splitDashes_sep,
    splitDashes_append implMark _ (by decide) (by decide),
    splitDashes_append _ _ hi' hilast,
    splitDashes_append testsMark _ (by decide) (by decide),
    splitDashes_append _ _ ht' htlast,
    splitDashes_append endMark _ (by decide) (by decide),
    splitDashes]

lemma extract_keeps_impl : ∀ (parts : List (List Char)) (impl tst : List Char),
    (∀ p ∈ parts, goTrimSpace p ≠ implMark) → (extractParts parts impl tst).1 = impl := by
  intro parts
  induction parts with
  | nil => intro impl tst _; rfl
  | cons p rest ih =>
    intro impl tst h
    rw [extractParts, if_neg (h p (List.mem_cons_self p rest))]
    have htail : ∀ q ∈ rest, goTrimSpace q ≠ implMark :=
      fun q hq => h q (List.mem_cons_of_mem p hq)
    by_cases ht : goTrimSpace p = testsMark
    · rw [if_pos ht]
      by_cases hr : rest = []
      · rw [if_pos hr]; exact ih _ _ htail
      · rw [if_neg hr]; exact ih _ _ htail
    · rw [if_neg ht]; exact ih _ _ htail

lemma extract_keeps_tests : ∀ (parts : List (List Char)) (impl tst : List Char),
    (∀ p ∈ parts, goTrimSpace p ≠ testsMark) → (extractParts parts impl tst).2 = tst := by
  intro parts
  induction parts with
  | nil => intro impl tst _; rfl
  | cons p rest ih =>
    intro impl tst h
    have htail : ∀ q ∈ rest, goTrimSpace q ≠ testsMark :=
      fun q hq => h q (List.mem_cons_of_mem p hq)
    rw [extractParts]
    by_cases hi : goTrimSpace p = implMark
    · rw [if_pos hi]
      by_cases hr : rest = []
      · rw [if_pos hr]; exact ih _ _ htail
      · rw [if_neg hr]; exact ih _ _ htail
    · rw [if_neg hi, if_neg (h p (List.mem_cons_self p rest))]
      exact ih _ _ htail

lemma extract_wf (impl tests : List Char)
    (h1 : goTrimSpace impl ≠ implMark) (h2 : goTrimSpace impl ≠ testsMark)
    (h3 : goTrimSpace tests ≠ implMark) (h4 : goTrimSpace tests ≠ testsMark) :
    extractParts [[], implMark, '\n' :: impl ++ ['\n'], testsMark,
        '\n' :: tests ++ ['\n'], endMark, []] [] []
      = (stripCodeBlock impl, stripCodeBlock tests) := by
  have e1 := goTrimSpace_wrap_nl impl
  have e2 := goTrimSpace_wrap_nl tests
  rw [extractParts, if_neg (by decide), if_neg (by decide)]
  rw [extractParts, if_pos (by decide), if_neg (by simp)]
  rw [extractParts, if_neg (by rw [e1]; exact h1), if_neg (by rw [e1]; exact h2)]
  rw [extractParts, if_neg (by decide), if_pos (by decide), if_neg (by simp)]
  rw [extractParts, if_neg (by rw [e2]; exact h3), if_neg (by rw [e2]; exact h4)]
  rw [extractParts, if_neg (by decide), if_neg (by decide)]
  rw [extractParts, if_neg (by decide), if_neg (by decide)]
  rw [extractParts]
  show (stripCodeBlock ('\n' :: impl ++ ['\n']), stripCodeBlock ('\n' :: tests ++ ['\n']))
    = (stripCodeBlock impl, stripCodeBlock tests)
  rw [stripCodeBlock_wrap, stripCodeBlock_wrap]

/-- C4: joint-repair parsing.  A response in the requested marker format
with both sections present and cleaning to nonempty text parses to exactly
the two fence-cleaned sections; a response with no IMPLEMENTATION part, or
no TESTS part, or whose sections clean to empty, fails with one of the two
malformed-response errors and yields no FixResult. -/
theorem claim_c4_fixboth_parsing :
    (∀ impl tests : List Char,
      ¬ dd3 <:+: impl → ¬ dd3 <:+: tests →
      goTrimSpace impl ≠ implMark → goTrimSpace impl ≠ testsMark →
      goTrimSpace tests ≠ implMark → goTrimSpace tests ≠ testsMark →
      stripCodeBlock impl ≠ [] → stripCodeBlock tests ≠ [] →
      parseFixBoth (wfResponse impl tests)
        = .ok ⟨stripCodeBlock tests, stripCodeBlock impl⟩)
    ∧ (∀ r : List Char, (∀ p ∈ splitDashes r, goTrimSpace p ≠ implMark) →
        ∃ e, parseFixBoth r = .error e)
    ∧ (∀ r : List Char, (∀ p ∈ splitDashes r, goTrimSpace p ≠ testsMark) →
        ∃ e, parseFixBoth r = .error e)
    ∧ (∀ impl tests : List Char,
      ¬ dd3 <:+: impl → ¬ dd3 <:+: tests →
      goTrimSpace impl ≠ implMark → goTrimSpace impl ≠ testsMark →
      goTrimSpace tests ≠ implMark → goTrimSpace tests ≠ testsMark →
      stripCodeBlock impl = [] ∨ stripCodeBlock tests = [] →
      parseFixBoth (wfResponse impl tests) = .error .malformedExtract) := by
  refine ⟨?_, ?_, ?_, ?_⟩
  · intro impl tests hi ht h1 h2 h3 h4 h7 h8
    rw [parseFixBoth, splitDashes_wfResponse impl tests hi ht,
      extract_wf impl tests h1 h2 h3 h4]
    rw [if_neg (by simp), if_neg (by simp [h7, h8])]
  · intro r h
    by_cases hlen : (splitDashes r).length < 5
    · exact ⟨.malformedFormat, by rw [parseFixBoth, if_pos hlen]⟩
    · refine ⟨.malformedExtract, ?_⟩
      rw [parseFixBoth, if_neg hlen,
        if_pos (Or.inl (extract_keeps_impl (splitDashes r) [] [] h))]
  · intro r h
    by_cases hlen : (splitDashes r).length < 5
    · exact ⟨.malformedFormat, by rw [parseFixBoth, if_pos hlen]⟩
    · refine ⟨.malformedExtract, ?_⟩
      rw [parseFixBoth, if_neg hlen,
        if_pos (Or.inr (extract_keeps_tests (splitDashes r) [] [] h))]
  · intro impl tests hi ht h1 h2 h3 h4 hor
    rw [parseFixBoth, splitDashes_wfResponse impl tests hi ht,
      extract_wf impl tests h1 h2 h3 h4]
    rw [if_neg (by simp), if_pos (by simpa using hor)]

/-- Witness for C4 at the concrete well-formed response with sections a
and b. -/
theorem claim_c4_witness :
    parseFixBoth (wfResponse ['a'] ['b']) = .ok ⟨['b'], ['a']⟩ := by
  have ha : stripCodeBlock ['a'] = ['a'] := by decide
  have hb : stripCodeBlock ['b'] = ['b'] := by decide
  rw [claim_c4_fixboth_parsing.1 ['a'] ['b'] (by decide) (by decide) (by decide)
    (by decide) (by decide) (by decide) (by decide) (by decide), ha, hb]

/-! The session store (package storage).  The JSON read/write round trip of
`saveSession`/`GetSession` is modelled as the identity on session records;
`AddIteration` is the read-modify-write on one session record. -/

/-- The `storage.Iteration` record. -/
structure Iteration where
  number : Nat
  testCode : List Char
  code : List Char
  testLogs : List Char
  success : Bool
  timestamp : Nat
deriving DecidableEq

/-- The `storage.Session` record. -/
structure Session where
  id : List Char
  description : List Char
  language : List Char
  iterations : List Iteration
  createdAt : Nat
  updatedAt : Nat
deriving DecidableEq

/-- `Storage.CreateSession`: a fresh session with empty iteration list. -/
def createSession (idv description language : List Char) (now : Nat) : Session :=
  { id := idv, description := description, language := language,
    iterations := [], createdAt := now, updatedAt := now }

/-- `Storage.AddIteration`: load the session, append an iteration numbered
`len(session.Iterations) + 1`, bump the update timestamp, store it back. -/
def addIteration (s : Session) (testCode code testLogs : List Char)
    (success : Bool) (now : Nat) : Session :=
  { s with
    iterations := s.iterations ++
      [{ number := s.iterations.length + 1, testCode := testCode, code := code,
         testLogs := testLogs, success := success, timestamp := now }],
    updatedAt := now }

/-- The arguments of one `AddIteration` call. -/
structure AddCall where
  testCode : List Char
  code : List Char
  testLogs : List Char
  success : Bool
  now : Nat
deriving DecidableEq

/-- A sequence of `AddIteration` calls applied to a session in order. -/
def applyCalls (s : Session) (calls : List AddCall) : Session :=
  calls.foldl (fun acc c => addIteration acc c.testCode c.code c.testLogs c.success c.now) s

lemma applyCalls_append (s : Session) (cs ds : List AddCall) :
    applyCalls s (cs ++ ds) = applyCalls (applyCalls s cs) ds := by
  unfold applyCalls
  exact List.foldl_append _ _ cs ds

lemma applyCalls_numbers : ∀ (calls : List AddCall) (s : Session),
    (applyCalls s calls).iterations.map Iteration.number
      = s.iterations.map Iteration.number
        ++ List.range' (s.iterations.length + 1) calls.length := by
  intro calls
  induction calls with
  | nil => intro s; simp [applyCalls]
  | cons c cs ih =>
    intro s
    have hstep : applyCalls s (c :: cs)
        = applyCalls (addIteration s c.testCode c.code c.testLogs c.success c.now) cs := rfl
    rw [hstep, ih]
    simp [addIteration, List.range'_succ, List.append_assoc]

lemma applyCalls_isPrefix (s : Session) (calls : List AddCall) :
    s.iterations <+: (applyCalls s calls).iterations := by
  induction calls generalizing s with
  | nil => exact ⟨[], by simp [applyCalls]⟩
  | cons c cs ih =>
    have hstep : applyCalls s (c :: cs)
        = applyCalls (addIteration s c.testCode c.code c.testLogs c.success c.now) cs := rfl
    rw [hstep]
    have h1 : s.iterations <+:
        (addIteration s c.testCode c.code c.testLogs c.success c.now).iterations :=
      ⟨_, rfl⟩
    obtain ⟨t1, ht1⟩ := h1
    obtain ⟨t2, ht2⟩ := ih (s := addIteration s c.testCode c.code c.testLogs c.success c.now)
    exact ⟨t1 ++ t2, by rw [← ht2, ← ht1, List.append_assoc]⟩

/-- The data stored in one iteration record, minus its sequence number. -/
def iterPayload (it : Iteration) : List Char × List Char × List Char × Bool × Nat :=
  (it.testCode, it.code, it.testLogs, it.success, it.timestamp)

/-- The data supplied by one `AddIteration` call. -/
def callPayload (c : AddCall) : List Char × List Char × List Char × Bool × Nat :=
  (c.testCode, c.code, c.testLogs, c.success, c.now)

lemma applyCalls_payload : ∀ (calls : List AddCall) (s : Session),
    (applyCalls s calls).iterations.map iterPayload
      = s.iterations.map iterPayload ++ calls.map callPayload := by
  intro calls
  induction calls with
  | nil => intro s; simp [applyCalls]
  | cons c cs ih =>
    intro s
    have hstep : applyCalls s (c :: cs)
        = applyCalls (addIteration s c.testCode c.code c.testLogs c.success c.now) cs := rfl
    rw [hstep, ih]
    simp [addIteration, iterPayload, callPayload, List.append_assoc]

/-- C1: starting from a fresh session, after any sequence of AddIteration
calls the stored iteration numbers are exactly 1..N in call order, the
stored payloads are the calls' payloads in call order, and the iteration
list after any earlier prefix of the calls is a prefix of the final list
(append-only: calls never mutate or renumber previously stored
iterations). -/
theorem claim_c1_iteration_numbers (idv desc lang : List Char) (t0 : Nat)
    (calls : List AddCall) :
    ((applyCalls (createSession idv desc lang t0) calls).iterations.length = calls.length)
    ∧ ((applyCalls (createSession idv desc lang t0) calls).iterations.map Iteration.number
        = List.range' 1 calls.length)
    ∧ ((applyCalls (createSession idv desc lang t0) calls).iterations.map iterPayload
        = calls.map callPayload)
    ∧ (∀ k : Nat,
        (applyCalls (createSession idv desc lang t0) (calls.take k)).iterations
          <+: (applyCalls (createSession idv desc lang t0) calls).iterations) := by
  refine ⟨?_, ?_, ?_, ?_⟩
  · have h := applyCalls_numbers calls (createSession idv desc lang t0)
    have := congrArg List.length h
    simpa [createSession] using this
  · have h := applyCalls_numbers calls (createSession idv desc lang t0)
    simpa [createSession] using h
  · have h := applyCalls_payload calls (createSession idv desc lang t0)
    simpa [createSession] using h
  · intro k
    rw [show calls = calls.take k ++ calls.drop k by simp, applyCalls_append]
    rw [List.take_append_drop]
    exact applyCalls_isPrefix _ _

/-! The test executor `TestRunner.RunTests`. -/

/-- The language tag go. -/
def goStr : List Char := ['g', 'o']

/-- The language tag python. -/
def pyStr : List Char := ['p', 'y', 't', 'h', 'o', 'n']

/-- Outcome of `cmd.Run()` for the spawned test process: either the process
could not be launched, or it ran and exited with the given status code; in
both cases the combined captured stdout+stderr text is attached. -/
inductive ProcOutcome
  | launchFailure (output : List Char)
  | exited (code : Nat) (output : List Char)
deriving DecidableEq

/-- The `executor.TestResult` record (the `Error` field of the Go struct is
never assigned anywhere in the source and is omitted). -/
structure TestResult where
  success : Bool
  output : List Char
deriving DecidableEq

/-- Classification of the process outcome in `RunTests`: `cmd.Run()`
returning any error (launch failure or non-zero exit) yields success=false
with a nil error, and a zero exit yields success=true. -/
def runProcResult : ProcOutcome → TestResult
  | .launchFailure out => ⟨false, out⟩
  | .exited 0 out => ⟨true, out⟩
  | .exited (_ + 1) out => ⟨false, out⟩

/-- `TestRunner.RunTests`: an unsupported language tag is rejected before
any process is consulted; otherwise the process outcome is classified by
`runProcResult`. -/
def runTests (language : List Char) (proc : ProcOutcome) : Except Err TestResult :=
  if language = goStr ∨ language = pyStr then .ok (runProcResult proc)
  else .error .unsupportedLanguage

/-- Counterexample to C5 as stated: for language go and a process that
fails to launch, `RunTests` does not return a hard error — it returns a
normal TestResult with success=false, because the source treats every
`cmd.Run()` error alike. -/
theorem claim_c5_counterexample :
    runTests goStr (ProcOutcome.launchFailure []) = .ok ⟨false, []⟩ := by
  rw [runTests, if_pos (Or.inl rfl)]
  rfl

/-- C5 (amended): `RunTests` returns a hard error iff the language tag is
unsupported, rejected before the process outcome is consulted; for a
supported language every process outcome yields a TestResult with no hard
error: success=true iff the process exited with status zero, and
success=false both on non-zero exit and on launch failure. -/
theorem claim_c5_amended_runTests (language : List Char) (proc : ProcOutcome) :
    (¬ (language = goStr ∨ language = pyStr) →
      runTests language proc = .error .unsupportedLanguage)
    ∧ ((language = goStr ∨ language = pyStr) →
      (∀ out, proc = .launchFailure out → runTests language proc = .ok ⟨false, out⟩)
      ∧ (∀ n out, proc = .exited n out →
          runTests language proc = .ok ⟨decide (n = 0), out⟩)) := by
  constructor
  · intro h
    rw [runTests, if_neg h]
  · intro h
    constructor
    · intro out hp
      subst hp
      rw [runTests, if_pos h]
      rfl
    · intro n out hp
      subst hp
      cases n with
      | zero => rw [runTests, if_pos h]; rfl
      | succ m => rw [runTests, if_pos h]; rfl

/-- Witness for the amended C5: the three behaviours at concrete inputs
(unsupported tag rust, a launch failure under go, exit status 2 under
python). -/
theorem claim_c5_witness :
    runTests ['r', 'u', 's', 't'] (ProcOutcome.exited 0 []) = .error .unsupportedLanguage
    ∧ runTests goStr (ProcOutcome.launchFailure ['x']) = .ok ⟨false, ['x']⟩
    ∧ runTests pyStr (ProcOutcome.exited 2 ['y']) = .ok ⟨decide (2 = 0), ['y']⟩ :=
  ⟨(claim_c5_amended_runTests ['r', 'u', 's', 't'] (ProcOutcome.exited 0 [])).1 (by decide),
   (claim_c5_amended_runTests goStr (ProcOutcome.launchFailure ['x'])).2 (Or.inl rfl)
     |>.1 ['x'] rfl,
   (claim_c5_amended_runTests pyStr (ProcOutcome.exited 2 ['y'])).2 (Or.inr rfl)
     |>.2 2 ['y'] rfl⟩

/-! The workspace lifecycle of `TestRunner.PrepareWorkspace` (C8). -/

/-- Filesystem events on the temporary workspace directory. -/
inductive WsEvent
  | createTemp
  | removeTemp
deriving DecidableEq

/-- Success/failure oracles for the side-effecting steps inside
`PrepareWorkspace`. -/
structure WsEnv where
  mkdirOk : Bool
  goInitOk : Bool
  goWriteModOk : Bool
  goTidyOk : Bool
  pyWriteReqOk : Bool
  pyPipOk : Bool
deriving DecidableEq

/-- `TestRunner.PrepareWorkspace`: create the temporary directory, then run
the language-specific initialisation.  Every failure on the go branch is
followed by `os.RemoveAll(tmpDir)`; the python branch returns its
initialisation error without any removal.  Returns the emitted filesystem
events and the error, if any. -/
def prepareWorkspace (language : List Char) (env : WsEnv) : List WsEvent × Option Err :=
  if env.mkdirOk = false then ([], some .writeFailure)
  else if language = goStr then
    if env.goInitOk = false then ([.createTemp, .removeTemp], some .writeFailure)
    else if env.goWriteModOk = false then ([.createTemp, .removeTemp], some .writeFailure)
    else if env.goTidyOk = false then ([.createTemp, .removeTemp], some .writeFailure)
    else ([.createTemp], none)
  else if language = pyStr then
    if env.pyWriteReqOk = false then ([.createTemp], some .writeFailure)
    else if env.pyPipOk = false then ([.createTemp], some .writeFailure)
    else ([.createTemp], none)
  else ([.createTemp], none)

/-- C8 is a code bug: for language python, when the python environment
initialisation fails (requirements.txt write fails), `PrepareWorkspace`
returns the error without removing the created temporary directory, and
`runNew` returns before its deferred removal is registered — the workspace
directory is leaked on this exit path, contradicting the removal-on-every-
exit-path claim.  The go branch removes the directory on each of its three
failure paths. -/
theorem claim_c8_python_leak :
    (prepareWorkspace pyStr
        ⟨true, true, true, true, false, true⟩).1 = [WsEvent.createTemp]
    ∧ (prepareWorkspace pyStr
        ⟨true, true, true, true, false, true⟩).2 = some .writeFailure
    ∧ WsEvent.removeTemp ∉ (prepareWorkspace pyStr
        ⟨true, true, true, true, false, true⟩).1
    ∧ (prepareWorkspace goStr
        ⟨true, false, true, true, true, true⟩).1 = [WsEvent.createTemp, WsEvent.removeTemp] := by
  refine ⟨?_, ?_, ?_, ?_⟩ <;> decide

/-! The iteration controller loop of `runNew` (cmd/new.go).  The parts of
`runNew` with no bearing on the claims (client and storage initialisation,
interactive input, session creation, workspace preparation, output
directory naming) are not repeated here; the model starts at the test
generation call and covers the write/run/record/repair loop and the final
copy, with the external collaborators (completion service, process runs,
file writes, persistence) supplied as per-iteration oracles. -/

/-- The `maxIterations` constant of cmd/new.go. -/
def maxIterations : Nat := 5

/-- Observable actions of one controller run. -/
inductive Ev
  | writeFiles (testCode code : List Char)
  | runTestsEv (i : Nat)
  | addIter (success : Bool)
  | fixBothEv (i : Nat)
  | copyFinal
deriving DecidableEq

/-- Oracles for the external collaborators of one run: the raw completion
responses for test generation, implementation generation and each repair
call, the process outcome of each test run, and success flags for each
file write, each persistence call, and the final copy. -/
structure RunEnv where
  testGenResp : Except Err (List Char)
  implGenResp : Except Err (List Char)
  runOutcome : Nat → ProcOutcome
  fixResp : Nat → Except Err (List Char)
  writeOk : Nat → Bool
  addIterOk : Nat → Bool
  copyOk : Bool

/-- Terminal states of the iteration loop. -/
inductive LoopExit
  | passed
  | exhausted
  | fatal (e : Err)
deriving DecidableEq

/-- `CodeGenerator.FixBoth`: a completion failure propagates; otherwise the
raw response is parsed by the joint-repair parser. -/
def fixBothM (env : RunEnv) (i : Nat) : Except Err FixResult :=
  match env.fixResp i with
  | .error e => .error e
  | .ok raw => parseFixBoth raw

/-- The `for i := 0; i < maxIterations; i++` loop of `runNew`:
run the tests, record the iteration, stop on success, otherwise repair
both sources and rewrite the workspace files; any collaborator error
aborts the run.  `r` is the number of loop passes left, `i` is the
absolute iteration index. -/
def loopAux (language : List Char) (env : RunEnv) :
    Nat → Nat → List Char → List Char → List Ev × LoopExit
  | 0, _, _, _ => ([], .exhausted)
  | r + 1, i, _tc, _cd =>
    match runTests language (env.runOutcome i) with
    | .error e => ([.runTestsEv i], .fatal e)
    | .ok res =>
      if env.addIterOk i = false then
        ([.runTestsEv i, .addIter res.success], .fatal .persistenceFailure)
      else if res.success then ([.runTestsEv i, .addIter res.success], .passed)
      else
        match fixBothM env i with
        | .error e => ([.runTestsEv i, .addIter res.success, .fixBothEv i], .fatal e)
        | .ok fr =>
          if env.writeOk (i + 1) = false then
            ([.runTestsEv i, .addIter res.success, .fixBothEv i,
              .writeFiles fr.testCode fr.code], .fatal .writeFailure)
          else
            ([.runTestsEv i, .addIter res.success, .fixBothEv i,
              .writeFiles fr.testCode fr.code]
              ++ (loopAux language env r (i + 1) fr.testCode fr.code).1,
             (loopAux language env r (i + 1) fr.testCode fr.code).2)

/-- The controller run of `runNew` from the test-generation call on:
generate tests and implementation (any completion failure aborts), write
both files, run the bounded loop, and copy the final files out whatever
the loop outcome was. -/
def runNewModel (language : List Char) (env : RunEnv) : List Ev × LoopExit :=
  match env.testGenResp with
  | .error e => ([], .fatal e)
  | .ok tRaw =>
    match env.implGenResp with
    | .error e => ([], .fatal e)
    | .ok iRaw =>
      if env.writeOk 0 = false then
        ([.writeFiles (stripCodeBlock tRaw) (stripCodeBlock iRaw)], .fatal .writeFailure)
      else
        match loopAux language env maxIterations 0 (stripCodeBlock tRaw) (stripCodeBlock iRaw) with
        | (evs, .fatal e) =>
          (.writeFiles (stripCodeBlock tRaw) (stripCodeBlock iRaw) :: evs, .fatal e)
        | (evs, .passed) =>
          (.writeFiles (stripCodeBlock tRaw) (stripCodeBlock iRaw) :: (evs ++ [.copyFinal]),
           if env.copyOk = false then .fatal .copyFailure else .passed)
        | (evs, .exhausted) =>
          (.writeFiles (stripCodeBlock tRaw) (stripCodeBlock iRaw) :: (evs ++ [.copyFinal]),
           if env.copyOk = false then .fatal .copyFailure else .exhausted)

/-- Test-run events among a run's events. -/
def isRunEv : Ev → Bool
  | .runTestsEv _ => true
  | _ => false

/-- Repair events among a run's events. -/
def isFixEv : Ev → Bool
  | .fixBothEv _ => true
  | _ => false

/-- Number of test-run cycles in a run trace. -/
def countRuns (evs : List Ev) : Nat := (evs.filter isRunEv).length

/-- Number of joint-repair calls in a run trace. -/
def countFixes (evs : List Ev) : Nat := (evs.filter isFixEv).length

lemma countRuns_append (a b : List Ev) : countRuns (a ++ b) = countRuns a + countRuns b := by
  simp [countRuns, List.filter_append]

lemma countFixes_append (a b : List Ev) : countFixes (a ++ b) = countFixes a + countFixes b := by
  simp [countFixes, List.filter_append]

lemma loopAux_runs_le (language : List Char) (env : RunEnv) :
    ∀ r i tc cd, countRuns (loopAux language env r i tc cd).1 ≤ r := by
  intro r
  induction r with
  | zero =>
    intro i tc cd
    rw [loopAux]
    simp [countRuns]
  | succ r ih =>
    intro i tc cd
    rw [loopAux]
    cases hrt : runTests language (env.runOutcome i) with
    | error e =>
      simp [countRuns, isRunEv, List.filter]
    | ok res =>
      dsimp only
      by_cases ha : env.addIterOk i = false
      · rw [if_pos ha]
        simp [countRuns, isRunEv, List.filter]
      · rw [if_neg ha]
        by_cases hs : res.success = true
        · rw [if_pos hs]
          simp [countRuns, isRunEv, List.filter]
        · rw [if_neg hs]
          cases hfx : fixBothM env i with
          | error e =>
            simp [countRuns, isRunEv, List.filter]
          | ok fr =>
            dsimp only
            by_cases hw : env.writeOk (i + 1) = false
            · rw [if_pos hw]
              simp [countRuns, isRunEv, List.filter]
            · rw [if_neg hw]
              have hrec := ih (i + 1) fr.testCode fr.code
              simp only [countRuns_append]
              have h4 : countRuns [Ev.runTestsEv i, Ev.addIter res.success, Ev.fixBothEv i,
                  Ev.writeFiles fr.testCode fr.code] = 1 := by
                simp [countRuns, isRunEv, List.filter]
              rw [h4]
              omega

lemma loopAux_exhausted_runs (language : List Char) (env : RunEnv) :
    ∀ r i tc cd, (loopAux language env r i tc cd).2 = .exhausted →
      countRuns (loopAux language env r i tc cd).1 = r := by
  intro r
  induction r with
  | zero =>
    intro i tc cd _
    rw [loopAux]
    simp [countRuns]
  | succ r ih =>
    intro i tc cd hex
    rw [loopAux] at hex ⊢
    cases hrt : runTests language (env.runOutcome i) with
    | error e =>
      rw [hrt] at hex
      simp at hex
    | ok res =>
      rw [hrt] at hex
      dsimp only at hex ⊢
      by_cases ha : env.addIterOk i = false
      · rw [if_pos ha] at hex
        simp at hex
      · rw [if_neg ha] at hex ⊢
        by_cases hs : res.success = true
        · rw [if_pos hs] at hex
          simp at hex
        · rw [if_neg hs] at hex ⊢
          cases hfx : fixBothM env i with
          | error e =>
            rw [hfx] at hex
            simp at hex
          | ok fr =>
            rw [hfx] at hex
            dsimp only at hex ⊢
            by_cases hw : env.writeOk (i + 1) = false
            · rw [if_pos hw] at hex
              simp at hex
            · rw [if_neg hw] at hex ⊢
              have hrec := ih (i + 1) fr.testCode fr.code hex
              simp only [countRuns_append]
              have h4 : countRuns [Ev.runTestsEv i, Ev.addIter res.success, Ev.fixBothEv i,
                  Ev.writeFiles fr.testCode fr.code] = 1 := by
                simp [countRuns, isRunEv, List.filter]
              rw [h4, hrec]
              omega

lemma countRuns_wcons (a b : List Char) (evs : List Ev) :
    countRuns (Ev.writeFiles a b :: evs) = countRuns evs := by
  simp [countRuns, List.filter_cons, isRunEv]

lemma countRuns_wrap (a b : List Char) (evs : List Ev) :
    countRuns (Ev.writeFiles a b :: (evs ++ [Ev.copyFinal])) = countRuns evs := by
  simp [countRuns, List.filter_cons, List.filter_append, isRunEv]

lemma countFixes_wcons (a b : List Char) (evs : List Ev) :
    countFixes (Ev.writeFiles a b :: evs) = countFixes evs := by
  simp [countFixes, List.filter_cons, isFixEv]

lemma countFixes_wrap (a b : List Char) (evs : List Ev) :
    countFixes (Ev.writeFiles a b :: (evs ++ [Ev.copyFinal])) = countFixes evs := by
  simp [countFixes, List.filter_cons, List.filter_append, isFixEv]

/-- C2: every controller run performs at most 5 test-run cycles, and a run
that ends in the exhausted state performed exactly the 5 allowed cycles —
the loop stops at the cap instead of continuing. -/
theorem claim_c2_run_cap (language : List Char) (env : RunEnv) :
    countRuns (runNewModel language env).1 ≤ 5
    ∧ ((runNewModel language env).2 = LoopExit.exhausted →
        countRuns (runNewModel language env).1 = 5) := by
  rw [runNewModel]
  cases htg : env.testGenResp with
  | error e =>
    exact ⟨by simp [countRuns], fun h => absurd h (by simp)⟩
  | ok tRaw =>
    cases hig : env.implGenResp with
    | error e =>
      exact ⟨by simp [countRuns], fun h => absurd h (by simp)⟩
    | ok iRaw =>
      dsimp only
      by_cases hw0 : env.writeOk 0 = false
      · rw [if_pos hw0]
        exact ⟨by simp [countRuns, List.filter_cons, isRunEv], fun h => absurd h (by simp)⟩
      · rw [if_neg hw0]
        have hle := loopAux_runs_le language env maxIterations 0
          (stripCodeBlock tRaw) (stripCodeBlock iRaw)
        have hexr := loopAux_exhausted_runs language env maxIterations 0
          (stripCodeBlock tRaw) (stripCodeBlock iRaw)
        rcases hlp : loopAux language env maxIterations 0
          (stripCodeBlock tRaw) (stripCodeBlock iRaw) with ⟨evs, ex⟩
        rw [hlp] at hle hexr
        dsimp only at hle hexr
        simp only [maxIterations] at hle hexr
        cases ex with
        | fatal e =>
          dsimp only
          exact ⟨by rw [countRuns_wcons]; exact hle, fun h => absurd h (by simp)⟩
        | passed =>
          dsimp only
          constructor
          · rw [countRuns_wrap]
            exact hle
          · intro h
            by_cases hc : env.copyOk = false
            · rw [if_pos hc] at h
              exact absurd h (by simp)
            · rw [if_neg hc] at h
              exact absurd h (by simp)
        | exhausted =>
          dsimp only
          constructor
          · rw [countRuns_wrap]
            exact hle
          · intro _
            rw [countRuns_wrap]
            exact hexr rfl

/-- The well-formed repair response with sections a and b parses to those
sections. -/
lemma parse_ab : parseFixBoth (wfResponse ['a'] ['b']) = .ok ⟨['b'], ['a']⟩ := by
  rw [parseFixBoth, splitDashes_wfResponse ['a'] ['b'] (by decide) (by decide),
    extract_wf ['a'] ['b'] (by decide) (by decide) (by decide) (by decide)]
  rw [if_neg (by simp), if_neg (by decide)]
  have ha : stripCodeBlock ['a'] = ['a'] := by decide
  have hb : stripCodeBlock ['b'] = ['b'] := by decide
  rw [ha, hb]

/-- A run whose collaborators all succeed but whose tests always fail runs
the loop to exhaustion. -/
lemma loopAux_all_fail (language : List Char) (env : RunEnv)
    (hrun : ∀ j, ∃ out, runTests language (env.runOutcome j) = .ok ⟨false, out⟩)
    (hadd : ∀ j, env.addIterOk j = true)
    (hfix : ∀ j, ∃ fr, fixBothM env j = .ok fr)
    (hwrite : ∀ j, env.writeOk j = true) :
    ∀ r i tc cd, (loopAux language env r i tc cd).2 = .exhausted := by
  intro r
  induction r with
  | zero =>
    intro i tc cd
    rw [loopAux]
  | succ r ih =>
    intro i tc cd
    rw [loopAux]
    obtain ⟨out, hout⟩ := hrun i
    rw [hout]
    dsimp only
    rw [if_neg (by simp [hadd i])]
    rw [if_neg (by simp)]
    obtain ⟨fr, hfr⟩ := hfix i
    rw [hfr]
    dsimp only
    rw [if_neg (by simp [hwrite (i + 1)])]
    exact ih (i + 1) fr.testCode fr.code

/-- The all-collaborators-ok, always-failing-tests environment. -/
def envAllFail : RunEnv :=
  { testGenResp := .ok ['t'], implGenResp := .ok ['c'],
    runOutcome := fun _ => .exited 1 ['o'],
    fixResp := fun _ => .ok (wfResponse ['a'] ['b']),
    writeOk := fun _ => true, addIterOk := fun _ => true, copyOk := true }

lemma envAllFail_exhausted : (runNewModel goStr envAllFail).2 = LoopExit.exhausted := by
  have hloop : (loopAux goStr envAllFail maxIterations 0
      (stripCodeBlock ['t']) (stripCodeBlock ['c'])).2 = .exhausted := by
    apply loopAux_all_fail
    · intro j
      refine ⟨['o'], ?_⟩
      show runTests goStr (ProcOutcome.exited 1 ['o']) = Except.ok ⟨false, ['o']⟩
      rw [runTests, if_pos (Or.inl rfl)]
      rfl
    · intro j
      rfl
    · intro j
      exact ⟨⟨['b'], ['a']⟩, parse_ab⟩
    · intro j
      rfl
  rw [runNewModel]
  dsimp only [envAllFail]
  rw [if_neg (by decide)]
  rcases hlp : loopAux goStr envAllFail maxIterations 0
      (stripCodeBlock ['t']) (stripCodeBlock ['c']) with ⟨evs, ex⟩
  rw [hlp] at hloop
  dsimp only at hloop
  subst hloop
  rw [show (loopAux goStr
      { testGenResp := Except.ok ['t'], implGenResp := Except.ok ['c'],
        runOutcome := fun _ => ProcOutcome.exited 1 ['o'],
        fixResp := fun _ => Except.ok (wfResponse ['a'] ['b']),
        writeOk := fun _ => true, addIterOk := fun _ => true, copyOk := true }
      maxIterations 0 (stripCodeBlock ['t']) (stripCodeBlock ['c']))
      = (evs, LoopExit.exhausted) from hlp]
  dsimp only
  rw [if_neg (by decide)]

/-- Witness for C2: in the always-failing environment the run exhausts and
the claimed cap theorem yields exactly 5 test-run cycles. -/
theorem claim_c2_witness :
    countRuns (runNewModel goStr envAllFail).1 ≤ 5
    ∧ countRuns (runNewModel goStr envAllFail).1 = 5 :=
  ⟨(claim_c2_run_cap goStr envAllFail).1,
   (claim_c2_run_cap goStr envAllFail).2 envAllFail_exhausted⟩

/-- When the first success happens after exactly `m` failing iterations
(all collaborators succeeding until then), the loop performs `m + 1` test
runs and `m` repair calls and exits passed. -/
lemma loopAux_first_success (language : List Char) (env : RunEnv) :
    ∀ m r i tc cd, m < r →
    (∀ j, i ≤ j → j < i + m → ∃ out, runTests language (env.runOutcome j) = .ok ⟨false, out⟩) →
    (∃ out, runTests language (env.runOutcome (i + m)) = .ok ⟨true, out⟩) →
    (∀ j, i ≤ j → j ≤ i + m → env.addIterOk j = true) →
    (∀ j, i ≤ j → j < i + m → ∃ fr, fixBothM env j = .ok fr) →
    (∀ j, i < j → j ≤ i + m → env.writeOk j = true) →
    countRuns (loopAux language env r i tc cd).1 = m + 1
    ∧ countFixes (loopAux language env r i tc cd).1 = m
    ∧ (loopAux language env r i tc cd).2 = .passed := by
  intro m
  induction m with
  | zero =>
    intro r i tc cd hr _hfail hsucc hadd _hfix _hwrite
    cases r with
    | zero => omega
    | succ r' =>
      rw [loopAux]
      obtain ⟨out, hout⟩ := hsucc
      rw [show i + 0 = i from rfl] at hout
      rw [hout]
      dsimp only
      rw [if_neg (by simp [hadd i le_rfl (by omega)])]
      rw [if_pos rfl]
      refine ⟨?_, ?_, rfl⟩
      · simp [countRuns, List.filter_cons, isRunEv]
      · simp [countFixes, List.filter_cons, isFixEv]
  | succ m ih =>
    intro r i tc cd hr hfail hsucc hadd hfix hwrite
    cases r with
    | zero => omega
    | succ r' =>
      rw [loopAux]
      obtain ⟨out, hout⟩ := hfail i le_rfl (by omega)
      rw [hout]
      dsimp only
      rw [if_neg (by simp [hadd i le_rfl (by omega)])]
      rw [if_neg (by simp)]
      obtain ⟨fr, hfr⟩ := hfix i le_rfl (by omega)
      rw [hfr]
      dsimp only
      rw [if_neg (by simp [hwrite (i + 1) (by omega) (by omega)])]
      have hrec := ih r' (i + 1) fr.testCode fr.code (by omega)
        (fun j hj1 hj2 => hfail j (by omega) (by omega))
        (by rw [show (i + 1) + m = i + (m + 1) from by omega]; exact hsucc)
        (fun j hj1 hj2 => hadd j (by omega) (by omega))
        (fun j hj1 hj2 => hfix j (by omega) (by omega))
        (fun j hj1 hj2 => hwrite j (by omega) (by omega))
      have h4r : countRuns [Ev.runTestsEv i, Ev.addIter false, Ev.fixBothEv i,
          Ev.writeFiles fr.testCode fr.code] = 1 := by
        simp [countRuns, List.filter_cons, isRunEv]
      have h4f : countFixes [Ev.runTestsEv i, Ev.addIter false, Ev.fixBothEv i,
          Ev.writeFiles fr.testCode fr.code] = 1 := by
        simp [countFixes, List.filter_cons, isFixEv]
      refine ⟨?_, ?_, hrec.2.2⟩
      · rw [countRuns_append, h4r, hrec.1]
        omega
      · rw [countFixes_append, h4f, hrec.2.1]
        omega

/-- C3: if the first `i` test runs fail (with all collaborators
succeeding) and the run at iteration `i < 5` succeeds, the whole run
performs exactly `i + 1` test-run cycles and exactly `i` repair calls —
nothing further happens after the success. -/
theorem claim_c3_stop_on_success (language : List Char) (env : RunEnv)
    (tRaw iRaw : List Char) (i : Nat)
    (htg : env.testGenResp = .ok tRaw) (hig : env.implGenResp = .ok iRaw)
    (hw0 : env.writeOk 0 = true) (hi : i < 5)
    (hfail : ∀ j, j < i → ∃ out, runTests language (env.runOutcome j) = .ok ⟨false, out⟩)
    (hsucc : ∃ out, runTests language (env.runOutcome i) = .ok ⟨true, out⟩)
    (hadd : ∀ j, j ≤ i → env.addIterOk j = true)
    (hfix : ∀ j, j < i → ∃ fr, fixBothM env j = .ok fr)
    (hwrite : ∀ j, j ≤ i → env.writeOk j = true) :
    countRuns (runNewModel language env).1 = i + 1
    ∧ countFixes (runNewModel language env).1 = i := by
  have hloop := loopAux_first_success language env i 5 0
    (stripCodeBlock tRaw) (stripCodeBlock iRaw) hi
    (fun j _ hj2 => hfail j (by omega))
    (by rw [show 0 + i = i from by omega]; exact hsucc)
    (fun j _ hj2 => hadd j (by omega))
    (fun j _ hj2 => hfix j (by omega))
    (fun j _ hj2 => hwrite j (by omega))
  rw [runNewModel, htg, hig]
  dsimp only
  rw [if_neg (by simp [hw0])]
  simp only [maxIterations]
  rcases hlp : loopAux language env 5 0 (stripCodeBlock tRaw) (stripCodeBlock iRaw)
    with ⟨evs, ex⟩
  rw [hlp] at hloop
  dsimp only at hloop
  obtain ⟨hc1, hc2, hc3⟩ := hloop
  subst hc3
  dsimp only
  exact ⟨by rw [countRuns_wrap]; exact hc1, by rw [countFixes_wrap]; exact hc2⟩

/-- The environment whose first test run fails and whose second
succeeds. -/
def envSecondPass : RunEnv :=
  { testGenResp := .ok ['t'], implGenResp := .ok ['c'],
    runOutcome := fun j => if j = 0 then .exited 1 ['o'] else .exited 0 ['o'],
    fixResp := fun _ => .ok (wfResponse ['a'] ['b']),
    writeOk := fun _ => true, addIterOk := fun _ => true, copyOk := true }

/-- Witness for C3: with a failure at iteration 0 and a success at
iteration 1, the run performs exactly 2 test cycles and 1 repair call. -/
theorem claim_c3_witness :
    countRuns (runNewModel goStr envSecondPass).1 = 1 + 1
    ∧ countFixes (runNewModel goStr envSecondPass).1 = 1 := by
  refine claim_c3_stop_on_success goStr envSecondPass ['t'] ['c'] 1 rfl rfl rfl
    (by omega) ?_ ?_ (fun j _ => rfl) ?_ (fun j _ => rfl)
  · intro j hj
    have hj0 : j = 0 := by omega
    subst hj0
    refine ⟨['o'], ?_⟩
    show runTests goStr (ProcOutcome.exited 1 ['o']) = Except.ok ⟨false, ['o']⟩
    rw [runTests, if_pos (Or.inl rfl)]
    rfl
  · refine ⟨['o'], ?_⟩
    show runTests goStr (ProcOutcome.exited 0 ['o']) = Except.ok ⟨true, ['o']⟩
    rw [runTests, if_pos (Or.inl rfl)]
    rfl
  · intro j _
    exact ⟨⟨['b'], ['a']⟩, parse_ab⟩

/-- The joint-repair parser returns a FixResult only when both extracted
sections are nonempty (the only empty-source rejection in the program). -/
lemma parseFixBoth_ok_nonempty (raw : List Char) (fr : FixResult)
    (h : parseFixBoth raw = .ok fr) : fr.code ≠ [] ∧ fr.testCode ≠ [] := by
  rw [parseFixBoth] at h
  by_cases h5 : (splitDashes raw).length < 5
  · rw [if_pos h5] at h
    cases h
  · rw [if_neg h5] at h
    by_cases he : (extractParts (splitDashes raw) [] []).1 = []
        ∨ (extractParts (splitDashes raw) [] []).2 = []
    · rw [if_pos he] at h
      cases h
    · rw [if_neg he] at h
      injection h with h'
      subst h'
      push_neg at he
      exact ⟨he.1, he.2⟩

/-- Every pass of the loop begins with a test-run event, whatever the
collaborators do. -/
lemma loopAux_run_mem (language : List Char) (env : RunEnv) :
    ∀ r, 1 ≤ r → ∀ i tc cd, Ev.runTestsEv i ∈ (loopAux language env r i tc cd).1 := by
  intro r hr
  cases r with
  | zero => omega
  | succ r' =>
    intro i tc cd
    rw [loopAux]
    cases hrt : runTests language (env.runOutcome i) with
    | error e => simp
    | ok res =>
      dsimp only
      by_cases ha : env.addIterOk i = false
      · rw [if_pos ha]; simp
      · rw [if_neg ha]
        by_cases hs : res.success = true
        · rw [if_pos hs]; simp
        · rw [if_neg hs]
          cases hfx : fixBothM env i with
          | error e => simp
          | ok fr =>
            dsimp only
            by_cases hw : env.writeOk (i + 1) = false
            · rw [if_pos hw]; simp
            · rw [if_neg hw]; simp

/-- C9 (amended): the controller does not treat empty cleaned generator
output as a failure for test generation or implementation generation — an
implementation response that cleans to empty is written into the workspace
as-is and the first test run is still performed; only the joint-repair
parser rejects empty sections, never returning a FixResult with an empty
side. -/
theorem claim_c9_amended_empty_source (language : List Char) (env : RunEnv)
    (tRaw iRaw : List Char)
    (htg : env.testGenResp = .ok tRaw) (hig : env.implGenResp = .ok iRaw)
    (hempty : stripCodeBlock iRaw = []) (hw0 : env.writeOk 0 = true) :
    Ev.writeFiles (stripCodeBlock tRaw) [] ∈ (runNewModel language env).1
    ∧ Ev.runTestsEv 0 ∈ (runNewModel language env).1
    ∧ (∀ raw fr, parseFixBoth raw = .ok fr → fr.code ≠ [] ∧ fr.testCode ≠ []) := by
  rw [runNewModel, htg, hig]
  dsimp only
  rw [if_neg (by simp [hw0]), hempty]
  have hmem := loopAux_run_mem language env maxIterations (by rw [maxIterations]; omega) 0
    (stripCodeBlock tRaw) []
  rcases hlp : loopAux language env maxIterations 0 (stripCodeBlock tRaw) []
    with ⟨evs, ex⟩
  rw [hlp] at hmem
  dsimp only at hmem
  cases ex with
  | fatal e =>
    dsimp only
    exact ⟨List.mem_cons_self _ _, List.mem_cons_of_mem _ hmem,
      parseFixBoth_ok_nonempty⟩
  | passed =>
    dsimp only
    exact ⟨List.mem_cons_self _ _,
      List.mem_cons_of_mem _ (List.mem_append.mpr (Or.inl hmem)),
      parseFixBoth_ok_nonempty⟩
  | exhausted =>
    dsimp only
    exact ⟨List.mem_cons_self _ _,
      List.mem_cons_of_mem _ (List.mem_append.mpr (Or.inl hmem)),
      parseFixBoth_ok_nonempty⟩

/-- The environment whose implementation response is a bare opening fence
(cleaning to empty source). -/
def envEmptyImpl : RunEnv :=
  { testGenResp := .ok ['x'], implGenResp := .ok ['`', '`', '`'],
    runOutcome := fun _ => .exited 1 [],
    fixResp := fun _ => .error .serviceFailure,
    writeOk := fun _ => true, addIterOk := fun _ => true, copyOk := true }

/-- Counterexample to C9 as stated: with an implementation response that
cleans to the empty string, the controller still writes the empty
implementation into the workspace and runs the tests against it — the
model's trace contains the write of empty code followed by the first test
run. -/
theorem claim_c9_counterexample :
    stripCodeBlock ['`', '`', '`'] = []
    ∧ Ev.writeFiles ['x'] [] ∈ (runNewModel goStr envEmptyImpl).1
    ∧ Ev.runTestsEv 0 ∈ (runNewModel goStr envEmptyImpl).1 := by
  refine ⟨by decide, ?_, ?_⟩ <;> decide

/-- Witness for the amended C9 at the concrete empty-implementation
environment. -/
theorem claim_c9_witness :
    Ev.writeFiles (stripCodeBlock ['x']) [] ∈ (runNewModel goStr envEmptyImpl).1
    ∧ Ev.runTestsEv 0 ∈ (runNewModel goStr envEmptyImpl).1
    ∧ (parseFixBoth (wfResponse ['a'] ['b']) = .ok ⟨['b'], ['a']⟩ →
        (['a'] : List Char) ≠ [] ∧ (['b'] : List Char) ≠ []) := by
  have h := claim_c9_amended_empty_source goStr envEmptyImpl ['x'] ['`', '`', '`']
    rfl rfl (by decide) rfl
  exact ⟨h.1, h.2.1, fun hp => h.2.2 (wfResponse ['a'] ['b']) ⟨['b'], ['a']⟩ hp⟩

end AIterate
